import Mathlib

/-!
Verification of `src/rust/gitxetcore/src/command/dir_summary.rs`.

Shallow embedding conventions:

* Relative paths (`PathBuf` in the source) are modeled by their list of
  path components (`PathC := List String`); the root / empty path `""`
  is `[]`, and `PathBuf::parent` is `List.dropLast` (removing the final
  path component), with parent of the root being the root again
  (`unwrap_or_else(|| Path::new(""))` in the source).
* Rust's `HashMap` is modeled as an association list with unique keys;
  the `entry(k).or_insert(d)` API (look up the entry at `k`, inserting
  `d` when absent, then mutate it in place) is `entryMod`.
* The file classifier (`compute_file_summary`, built on the external
  `summarize_libmagic`) is an explicit function parameter
  `classify : PathC → FileClassification`; per the classifier contract
  it is total, returning an empty `file_type` for unclassifiable files.
* `i64` counts are modeled as `Int`; each count is bounded by the number
  of input files, so `i64` wrap-around is unreachable and not modeled.
* serde_json (external to this repository) is modeled from the spec by a
  small JSON value tree `Json` together with structural
  encoders/decoders for the `DirSummaries` shape.
-/

namespace XetDirSummary

/-- Classification of one file as produced by `compute_file_summary` /
`summarize_libmagic`: `file_type` is the type label (empty when the file
is unclassifiable) and `file_type_simple` the human-readable display
name. -/
structure FileClassification where
  file_type : String
  file_type_simple : String
deriving DecidableEq

/-- A relative path as its list of `/`-separated components. -/
abbrev PathC := List String

abbrev FileExtension := String

/-- `PerFileInfo` from the source: a per-type counter plus the display
name recorded when the entry was first created. -/
structure PerFileInfo where
  count : Int
  display_name : String
deriving DecidableEq

/-- `SummaryInfo`: map from file type to `PerFileInfo`
(`HashMap<FileExtension, PerFileInfo>`), as an association list. -/
abbrev SummaryInfo := List (FileExtension × PerFileInfo)

/-- `FolderPath` (a directory path, `String` in the source, here in
component form). -/
abbrev FolderPath := PathC

/-- `DirSummaries` from the source: a format version plus the map from
directory to its `SummaryInfo`. -/
structure DirSummaries where
  version : Int
  summaries : List (FolderPath × SummaryInfo)
deriving DecidableEq

def DIR_SUMMARY_VERSION : Int := 1

/-- `DirSummaries::default()`: current version, empty map. -/
def DirSummaries.default : DirSummaries := ⟨DIR_SUMMARY_VERSION, []⟩

/-- First value stored at key `k` in an association list. -/
def alookup {α β : Type _} [DecidableEq α] : List (α × β) → α → Option β
  | [], _ => none
  | (k, v) :: rest, k' => if k' = k then some v else alookup rest k'

/-- Rust's `HashMap::entry(k).or_insert(d)` followed by an in-place
mutation `f` of the entry: modify the entry at `k` when present,
otherwise append `(k, f d)`. -/
def entryMod {α β : Type _} [DecidableEq α] (m : List (α × β)) (k : α) (d : β) (f : β → β) :
    List (α × β) :=
  match m with
  | [] => [(k, f d)]
  | (k', v) :: rest => if k = k' then (k', f v) :: rest else (k', v) :: entryMod rest k d f

/-- One iteration of the per-file loop in `compute_dir_summaries`
(lines 129–154): the directory entry is created (`.entry(..).or_default()`)
before the empty-extension check; a nonempty `file_type` then bumps that
type's entry, seeding `display_name` from this file's
`file_type_simple` only when the entry is new. -/
def processFile (classify : PathC → FileClassification)
    (m : List (FolderPath × SummaryInfo)) (path : PathC) :
    List (FolderPath × SummaryInfo) :=
  let entry_dir : FolderPath := path.dropLast
  let fc := classify path
  entryMod m entry_dir [] (fun summaries =>
    if fc.file_type = "" then summaries
    else
      entryMod summaries fc.file_type ⟨0, fc.file_type_simple⟩
        (fun i => { i with count := i.count + 1 }))

/-- The direct (non-recursive) summary build: the `for blob_data in
tree_listing.files` loop of `compute_dir_summaries`. -/
def buildDirect (classify : PathC → FileClassification) (files : List PathC) :
    List (FolderPath × SummaryInfo) :=
  files.foldl (processFile classify) []

/-- One `count += count` update of `aggregated_ds` at one directory
(lines 167–178 of the source). -/
def addAt (agg : List (FolderPath × SummaryInfo)) (dir : FolderPath)
    (file_type : FileExtension) (info : PerFileInfo) :
    List (FolderPath × SummaryInfo) :=
  entryMod agg dir [] (fun summaries =>
    entryMod summaries file_type ⟨0, info.display_name⟩
      (fun i => { i with count := i.count + info.count }))

/-- The ancestor walk (`loop` at lines 166–188): add at `dir`; stop if
`dir` is the root `""`, else continue at the parent. -/
def rollupWalk (agg : List (FolderPath × SummaryInfo)) (dir : FolderPath)
    (file_type : FileExtension) (info : PerFileInfo) :
    List (FolderPath × SummaryInfo) :=
  let agg' := addAt agg dir file_type info
  if _h : dir = [] then agg'
  else rollupWalk agg' dir.dropLast file_type info
termination_by dir.length
decreasing_by
  simp only [List.length_dropLast]
  exact Nat.sub_lt (List.length_pos.mpr _h) Nat.one_pos

/-- The recursive aggregation pass (lines 156–191): for every
`(path, st_hashmap)` entry and every `(file_type, info)` inside it, walk
the ancestor chain adding `info.count`. -/
def rollUp (direct : List (FolderPath × SummaryInfo)) :
    List (FolderPath × SummaryInfo) :=
  direct.foldl
    (fun agg e => e.2.foldl (fun agg2 te => rollupWalk agg2 e.1 te.1 te.2) agg) []

/-- `compute_dir_summaries`: build the direct summaries, then either
aggregate them recursively or return them as they are.  The snapshot
listing (`GitTreeListing::build`) is external; its files are the
`files` parameter. -/
def compute_dir_summaries (classify : PathC → FileClassification)
    (files : List PathC) (recursive : Bool) : DirSummaries :=
  let dir_summary : DirSummaries := ⟨DIR_SUMMARY_VERSION, buildDirect classify files⟩
  if recursive then ⟨DIR_SUMMARY_VERSION, rollUp dir_summary.summaries⟩
  else dir_summary

/-! ## Observation functions used to state properties of the maps -/

/-- The `PerFileInfo` stored for directory `D` and type `T`, if any. -/
def typeLookup (m : List (FolderPath × SummaryInfo)) (D : FolderPath)
    (T : FileExtension) : Option PerFileInfo :=
  match alookup m D with
  | some inner => alookup inner T
  | none => none

/-- The count stored for directory `D` and type `T` (0 when absent). -/
def lookupCount (m : List (FolderPath × SummaryInfo)) (D : FolderPath)
    (T : FileExtension) : Int :=
  match typeLookup m D T with
  | some i => i.count
  | none => 0

/-- The ancestor chain visited by the roll-up walk starting at `p`:
`p` itself, then successive parents, ending with the root `[]`. -/
def chain (p : FolderPath) : List FolderPath :=
  if _h : p = [] then [[]] else p :: chain p.dropLast
termination_by p.length
decreasing_by
  simp only [List.length_dropLast]
  exact Nat.sub_lt (List.length_pos.mpr _h) Nat.one_pos

/-- `C` is a direct child directory of `D`. -/
def childOf (C D : FolderPath) : Prop := C ≠ [] ∧ C.dropLast = D

instance (C D : FolderPath) : Decidable (childOf C D) := by
  unfold childOf; infer_instance

/-- Sum over the entries of `agg` belonging to direct child directories
of `D` of their stored count for type `T`. -/
def childSum (agg : List (FolderPath × SummaryInfo)) (D : FolderPath)
    (T : FileExtension) : Int :=
  (agg.map (fun e =>
    if childOf e.1 D then
      match alookup e.2 T with
      | some i => i.count
      | none => 0
    else 0)).sum

/-- File `f` is a classified file of type `T` lying directly in
directory `D` (its parent directory is `D`). -/
def fileMatches (classify : PathC → FileClassification) (D : FolderPath)
    (T : FileExtension) (f : PathC) : Prop :=
  f.dropLast = D ∧ (classify f).file_type = T ∧ T ≠ ""

instance (classify : PathC → FileClassification) (D : FolderPath)
    (T : FileExtension) (f : PathC) : Decidable (fileMatches classify D T f) := by
  unfold fileMatches; infer_instance

/-- File `f` is a classified file of type `T` anywhere in `D`'s subtree
(`D` is an ancestor of, or equal to, `f`'s parent directory). -/
def subtreeMatches (classify : PathC → FileClassification) (D : FolderPath)
    (T : FileExtension) (f : PathC) : Prop :=
  D ∈ chain f.dropLast ∧ (classify f).file_type = T ∧ T ≠ ""

instance (classify : PathC → FileClassification) (D : FolderPath)
    (T : FileExtension) (f : PathC) : Decidable (subtreeMatches classify D T f) := by
  unfold subtreeMatches; infer_instance

/-- Number of occurrences of `D` in a list of directories, as an `Int`. -/
def occCount (L : List FolderPath) (D : FolderPath) : Int :=
  (L.map (fun e => if e = D then (1 : Int) else 0)).sum

/-- Number of files in `fs` that are classified files of type `T` lying
directly in `D`. -/
def matchCount (c : PathC → FileClassification) (D : FolderPath)
    (T : FileExtension) (fs : List PathC) : Int :=
  (fs.map (fun f => if fileMatches c D T f then (1 : Int) else 0)).sum

/-- The first file in `fs` that is a classified file of type `T` lying
directly in `D`. -/
def firstMatch (c : PathC → FileClassification) (D : FolderPath)
    (T : FileExtension) (fs : List PathC) : Option PathC :=
  fs.find? (fun f => decide (fileMatches c D T f))

/-- Number of files in `fs` that are classified files of type `T`
anywhere in `D`'s subtree. -/
def subtreeMatchCount (c : PathC → FileClassification) (D : FolderPath)
    (T : FileExtension) (fs : List PathC) : Int :=
  (fs.map (fun f => if subtreeMatches c D T f then (1 : Int) else 0)).sum

/-- Sum of the counts of all entries for type `T` in one `SummaryInfo`. -/
def sumTypeEntries (inner : SummaryInfo) (T : FileExtension) : Int :=
  (inner.map (fun kv => if kv.1 = T then kv.2.count else 0)).sum

/-- Sum, over direct-map entries whose directory lies in `D`'s subtree,
of their counts for type `T`. -/
def subtreeCount (direct : List (FolderPath × SummaryInfo)) (D : FolderPath)
    (T : FileExtension) : Int :=
  (direct.map (fun e => if D ∈ chain e.1 then sumTypeEntries e.2 T else 0)).sum

/-! ## Cache codec

The source serializes `DirSummaries` with serde_json
(`serde_json::to_string_pretty` / `serde_json::from_str`), a library
external to this repository.  Modelled from the spec: the Cache Codec's
payload is a structured value tree (`Json`), `encode` writes the
`DirSummaries` shape into it, `decode` parses it back and fails on any
other shape (`MalformedPayload`).  Directory keys are serialized as the
`/`-joined path string. -/

/-- Modelled from the spec: a JSON-like payload value (the fragment of
JSON needed by the `DirSummaries` format). -/
inductive Json where
  | num (n : Int)
  | str (s : String)
  | obj (fields : List (String × Json))

/-- Join path components with `/` (character-list form). -/
def joinSegs : List (List Char) → List Char
  | [] => []
  | s :: rest => if rest = [] then s else s ++ '/' :: joinSegs rest

/-- Split a character list on `/`; always returns at least one segment. -/
def splitSegs : List Char → List (List Char)
  | [] => [[]]
  | c :: cs =>
    if c = '/' then [] :: splitSegs cs
    else
      match splitSegs cs with
      | [] => [[c]]
      | s :: ss => (c :: s) :: ss

/-- The directory-path string for a component path (root is `""`). -/
def pathToString (p : PathC) : String := ⟨joinSegs (p.map String.data)⟩

/-- Parse a directory-path string back into components (`""` is the
root `[]`). -/
def stringToPath (s : String) : PathC :=
  if s = "" then [] else (splitSegs s.data).map (fun cs => ⟨cs⟩)

def encodePerFileInfo (i : PerFileInfo) : Json :=
  .obj [("count", .num i.count), ("display_name", .str i.display_name)]

def encodeSummaryInfo (s : SummaryInfo) : Json :=
  .obj (s.map fun kv => (kv.1, encodePerFileInfo kv.2))

/-- Modelled from the spec: `Encode` — serialize a `DirSummaries`
(`serde_json::to_string_pretty` in the source). -/
def encode (d : DirSummaries) : Json :=
  .obj [("version", .num d.version),
        ("summaries", .obj (d.summaries.map fun e => (pathToString e.1, encodeSummaryInfo e.2)))]

def decodePerFileInfo : Json → Option PerFileInfo
  | .obj [("count", .num n), ("display_name", .str s)] => some ⟨n, s⟩
  | _ => none

/-- Decode the per-type entries of one directory object, failing if any
entry is malformed. -/
def decodeInnerFields : List (String × Json) → Option SummaryInfo
  | [] => some []
  | kv :: rest =>
    match decodePerFileInfo kv.2, decodeInnerFields rest with
    | some i, some l => some ((kv.1, i) :: l)
    | _, _ => none

def decodeSummaryInfo : Json → Option SummaryInfo
  | .obj fields => decodeInnerFields fields
  | _ => none

/-- Decode the per-directory entries of the summaries object, failing if
any entry is malformed. -/
def decodeOuterFields : List (String × Json) → Option (List (FolderPath × SummaryInfo))
  | [] => some []
  | kv :: rest =>
    match decodeSummaryInfo kv.2, decodeOuterFields rest with
    | some s, some l => some ((stringToPath kv.1, s) :: l)
    | _, _ => none

/-- Modelled from the spec: `Decode` — parse a payload back into a
`DirSummaries`, `none` on any malformed payload
(`serde_json::from_str::<DirSummaries>` in the source). -/
def decode : Json → Option DirSummaries
  | .obj [("version", .num v), ("summaries", .obj entries)] =>
      match decodeOuterFields entries with
      | some l => some ⟨v, l⟩
      | none => none
  | _ => none

/-- A component path that corresponds to an actual path string: no
component contains `/`, and the path is not the degenerate `[""]`
(whose string form coincides with the root `""`). -/
def wfPath (p : PathC) : Prop :=
  (∀ s ∈ p, ('/' : Char) ∉ s.data) ∧ p ≠ [""]

instance (p : PathC) : Decidable (wfPath p) := by
  unfold wfPath
  infer_instance

/-- All directory keys of a `DirSummaries` are well-formed paths. -/
def wfSummaries (d : DirSummaries) : Prop := ∀ e ∈ d.summaries, wfPath e.1

instance (d : DirSummaries) : Decidable (wfSummaries d) := by
  unfold wfSummaries
  infer_instance

/-! ## Command driver (`dir_summary_command`, lines 33–87)

The external collaborators are modeled explicitly: the Cache Store holds
the (optional) git note for the resolved commit; the invocation records
which Cache Store operations it performs.  Note that in the source the
tuple `(args.no_cache, gitrepo.find_note(..))` on line 51 evaluates
`find_note` (the Cache Store `get`) eagerly, before the `no_cache`
pattern test, so a `get` happens on every invocation. -/

/-- The git-notes entry for the resolved commit under the summary notes
ref (`None` = no note found). -/
structure CacheStore where
  note : Option Json

/-- A Cache Store operation performed during an invocation. -/
inductive CacheOp where
  | get
  | put
deriving DecidableEq

/-- The reuse test of lines 63–66: the note content decodes into a
`DirSummaries` and its version is `DIR_SUMMARY_VERSION`. -/
def isReusable (payload : Option Json) : Bool :=
  match payload with
  | some p =>
      match decode p with
      | some d => d.version == DIR_SUMMARY_VERSION
      | none => false
  | none => false

/-- Outcome of one `dir_summary_command` invocation: the printed
payload, the final Cache Store state, the Cache Store operations
performed (in order), and whether the summary was recomputed. -/
structure RunResult where
  output : Json
  store : CacheStore
  ops : List CacheOp
  recomputed : Bool

/-- `dir_summary_command` (lines 33–87): fetch the note (`find_note` is
evaluated unconditionally as part of the tuple on line 51, though its
result is only examined when `no_cache` is false), reuse it when it
decodes at the current version, otherwise recompute; write back with
force-overwrite unless `no_cache`. -/
def dir_summary_command (classify : PathC → FileClassification)
    (files : List PathC) (no_cache recursive : Bool) (store : CacheStore) :
    RunResult :=
  let fetched : Option Json := store.note
  let reuse : Option Json :=
    match no_cache, fetched with
    | false, some payload => if isReusable (some payload) then some payload else none
    | _, _ => none
  match reuse with
  | some payload => ⟨payload, store, [.get], false⟩
  | none =>
    let summaries := compute_dir_summaries classify files recursive
    let content := encode summaries
    if no_cache then ⟨content, store, [.get], true⟩
    else ⟨content, ⟨some content⟩, [.get, .put], true⟩

/-! ## Concrete fixtures for scenario and witness theorems -/

/-- Scenario A classifier: `.png → "png"`, `.txt → "text"`, everything
else unclassifiable. -/
def classifyA (p : PathC) : FileClassification :=
  match p.getLast? with
  | some name =>
    if decide (['.', 'p', 'n', 'g'] <:+ name.data) then ⟨"png", "PNG image"⟩
    else if decide (['.', 't', 'x', 't'] <:+ name.data) then ⟨"text", "ASCII text"⟩
    else ⟨"", ""⟩
  | none => ⟨"", ""⟩

/-- Scenario A file set: `{a/x.png, a/y.png, a/b/z.png, c.txt}`. -/
def filesA : List PathC := [["a", "x.png"], ["a", "y.png"], ["a", "b", "z.png"], ["c.txt"]]

/-- A classifier giving two same-type files different display names
(the classifier contract does not forbid this). -/
def classifyTwoLabels (p : PathC) : FileClassification :=
  if p = [("f" : String)] then ⟨"t", "A"⟩ else ⟨"t", "B"⟩

/-- A classifier that cannot classify anything. -/
def classifyNone (_p : PathC) : FileClassification := ⟨"", ""⟩

/-- A well-formed stored payload at the current version. -/
def storedPayloadV1 : Json :=
  .obj [("version", .num 1), ("summaries", .obj [])]

/-- A small concrete `DirSummaries` value with well-formed paths. -/
def sampleSummaries : DirSummaries :=
  ⟨1, [(["a"], [("png", ⟨1, "PNG image"⟩)]), (["a", "b"], [("text", ⟨2, "ASCII text"⟩)])]⟩

/-! ## Association-list lemmas -/

theorem alookup_lookup_entryMod_self {α β : Type _} [DecidableEq α]
    (m : List (α × β)) (k : α) (d : β) (f : β → β) :
    alookup (entryMod m k d f) k = some (f ((alookup m k).getD d)) := by
  induction m with
  | nil => simp [alookup, entryMod]
  | cons hd tl ih =>
    obtain ⟨k', v⟩ := hd
    by_cases hk : k = k'
    · subst hk
      simp [alookup, entryMod]
    · simp [alookup, entryMod, hk, Ne.symm hk, ih]

theorem alookup_lookup_entryMod_ne {α β : Type _} [DecidableEq α]
    (m : List (α × β)) (k k' : α) (d : β) (f : β → β) (h : k' ≠ k) :
    alookup (entryMod m k d f) k' = alookup m k' := by
  induction m with
  | nil => simp [alookup, entryMod, h]
  | cons hd tl ih =>
    obtain ⟨k'', v⟩ := hd
    by_cases hk : k = k''
    · subst hk
      simp [alookup, entryMod, h]
    · by_cases hk' : k' = k''
      · subst hk'
        simp [alookup, entryMod, hk]
      · simp [alookup, entryMod, hk, hk', ih]

theorem mem_keys_entryMod {α β : Type _} [DecidableEq α]
    (m : List (α × β)) (k a : α) (d : β) (f : β → β) :
    a ∈ (entryMod m k d f).map Prod.fst ↔ a ∈ m.map Prod.fst ∨ a = k := by
  induction m with
  | nil => simp [entryMod]
  | cons hd tl ih =>
    obtain ⟨k', v⟩ := hd
    by_cases hk : k = k'
    · subst hk
      simp [entryMod]
      tauto
    · simp [entryMod, hk, ih]
      tauto

theorem nodup_keys_entryMod {α β : Type _} [DecidableEq α]
    (m : List (α × β)) (k : α) (d : β) (f : β → β)
    (h : (m.map Prod.fst).Nodup) : ((entryMod m k d f).map Prod.fst).Nodup := by
  induction m with
  | nil => simp [entryMod]
  | cons hd tl ih =>
    obtain ⟨k', v⟩ := hd
    simp only [List.map_cons, List.nodup_cons] at h
    by_cases hk : k = k'
    · subst hk
      simpa [entryMod] using h
    · simp only [entryMod, if_neg hk, List.map_cons, List.nodup_cons]
      refine ⟨fun hmem => ?_, ih h.2⟩
      rw [mem_keys_entryMod] at hmem
      rcases hmem with hmem | hmem
      · exact h.1 hmem
      · exact hk (hmem.symm)

theorem alookup_eq_none_iff {α β : Type _} [DecidableEq α]
    (m : List (α × β)) (k : α) :
    alookup m k = none ↔ k ∉ m.map Prod.fst := by
  induction m with
  | nil => simp [alookup]
  | cons hd tl ih =>
    obtain ⟨k', v⟩ := hd
    by_cases hk : k = k'
    · subst hk
      simp [alookup]
    · simp [alookup, hk, ih]

theorem alookup_of_mem_nodup {α β : Type _} [DecidableEq α]
    {m : List (α × β)} {k : α} {v : β}
    (hnd : (m.map Prod.fst).Nodup) (hmem : (k, v) ∈ m) :
    alookup m k = some v := by
  induction m with
  | nil => simp at hmem
  | cons hd tl ih =>
    obtain ⟨k', v'⟩ := hd
    simp only [List.map_cons, List.nodup_cons] at hnd
    rcases List.mem_cons.mp hmem with heq | hmem'
    · obtain ⟨rfl, rfl⟩ := Prod.mk.injEq .. ▸ heq
      simp_all [alookup]
    · have hk : k ≠ k' := by
        rintro rfl
        exact hnd.1 (List.mem_map.mpr ⟨(k, v), hmem', rfl⟩)
      simp [alookup, hk, ih hnd.2 hmem']

theorem sum_map_entryMod {α β : Type _} [DecidableEq α]
    (m : List (α × β)) (k : α) (d : β) (f : β → β) (g : α × β → Int) :
    ((entryMod m k d f).map g).sum
      = (m.map g).sum
        + (match alookup m k with
           | some v => g (k, f v) - g (k, v)
           | none => g (k, f d)) := by
  induction m with
  | nil => simp [alookup, entryMod]
  | cons hd tl ih =>
    obtain ⟨k', v⟩ := hd
    by_cases hk : k = k'
    · subst hk
      simp [alookup, entryMod]
      ring
    · simp only [entryMod, if_neg hk, List.map_cons, List.sum_cons, ih, alookup,
        if_neg (Ne.symm hk)]
      rcases h : alookup tl k with _ | v' <;> simp <;> ring

/-! ## Ancestor-chain lemmas -/

theorem chain_nil : chain [] = [[]] := by
  rw [chain]
  simp

theorem chain_of_ne_nil (p : FolderPath) (h : p ≠ []) :
    chain p = p :: chain p.dropLast := by
  rw [chain]
  simp [h]

theorem chain_concat (l : FolderPath) (a : String) :
    chain (l ++ [a]) = (l ++ [a]) :: chain l := by
  rw [chain_of_ne_nil _ (by simp), List.dropLast_concat]

theorem self_mem_chain (p : FolderPath) : p ∈ chain p := by
  by_cases h : p = []
  · subst h; rw [chain_nil]; simp
  · rw [chain_of_ne_nil _ h]; simp

theorem chain_ne_nil (p : FolderPath) : chain p ≠ [] := by
  by_cases h : p = []
  · subst h; rw [chain_nil]; simp
  · rw [chain_of_ne_nil _ h]; simp

theorem nil_mem_chain (p : FolderPath) : [] ∈ chain p := by
  induction p using List.reverseRecOn with
  | nil => rw [chain_nil]; simp
  | append_singleton l a ih => rw [chain_concat]; exact List.mem_cons_of_mem _ ih

theorem length_le_of_mem_chain {e p : FolderPath} (h : e ∈ chain p) :
    e.length ≤ p.length := by
  induction p using List.reverseRecOn with
  | nil =>
    rw [chain_nil] at h
    simp at h
    simp [h]
  | append_singleton l a ih =>
    rw [chain_concat] at h
    rcases List.mem_cons.mp h with rfl | h'
    · exact le_rfl
    · calc e.length ≤ l.length := ih h'
        _ ≤ (l ++ [a]).length := by simp

theorem chain_subset_of_mem {e p : FolderPath} (h : e ∈ chain p) :
    ∀ x ∈ chain e, x ∈ chain p := by
  induction p using List.reverseRecOn with
  | nil =>
    rw [chain_nil] at h ⊢
    simp at h
    subst h
    intro x hx
    rwa [chain_nil] at hx
  | append_singleton l a ih =>
    rw [chain_concat] at h
    rcases List.mem_cons.mp h with rfl | h'
    · intro x hx; exact hx
    · intro x hx
      rw [chain_concat]
      exact List.mem_cons_of_mem _ (ih h' x hx)

theorem eq_of_mem_chain_of_length_eq {e₁ e₂ p : FolderPath}
    (h₁ : e₁ ∈ chain p) (h₂ : e₂ ∈ chain p) (hlen : e₁.length = e₂.length) :
    e₁ = e₂ := by
  induction p using List.reverseRecOn with
  | nil =>
    rw [chain_nil] at h₁ h₂
    simp at h₁ h₂
    rw [h₁, h₂]
  | append_singleton l a ih =>
    rw [chain_concat] at h₁ h₂
    rcases List.mem_cons.mp h₁ with rfl | h₁' <;>
      rcases List.mem_cons.mp h₂ with rfl | h₂'
    · rfl
    · have := length_le_of_mem_chain h₂'
      simp at hlen
      omega
    · have := length_le_of_mem_chain h₁'
      simp at hlen
      omega
    · exact ih h₁' h₂'

theorem chain_nodup (p : FolderPath) : (chain p).Nodup := by
  induction p using List.reverseRecOn with
  | nil => rw [chain_nil]; simp
  | append_singleton l a ih =>
    rw [chain_concat]
    refine List.nodup_cons.mpr ⟨fun hmem => ?_, ih⟩
    have := length_le_of_mem_chain hmem
    simp at this

theorem count_nil_chain (p : FolderPath) : (chain p).count [] = 1 := by
  induction p using List.reverseRecOn with
  | nil => rw [chain_nil]; rfl
  | append_singleton l a ih =>
    rw [chain_concat, List.count_cons]
    simp [ih]

theorem chain_getLast? (p : FolderPath) : (chain p).getLast? = some [] := by
  induction p using List.reverseRecOn with
  | nil => rw [chain_nil]; rfl
  | append_singleton l a ih =>
    rw [chain_concat, List.getLast?_cons, ih]
    simp

theorem exists_child_of_mem_chain {D p : FolderPath}
    (hmem : D ∈ chain p) (hne : D ≠ p) :
    ∃ C, childOf C D ∧ C ∈ chain p := by
  induction p using List.reverseRecOn with
  | nil =>
    rw [chain_nil] at hmem
    simp at hmem
    exact absurd hmem hne
  | append_singleton l a ih =>
    rw [chain_concat] at hmem
    rcases List.mem_cons.mp hmem with rfl | h'
    · exact absurd rfl hne
    · by_cases hD : D = l
      · subst hD
        exact ⟨D ++ [a], ⟨by simp, List.dropLast_concat ..⟩,
          by rw [chain_concat]; simp⟩
      · obtain ⟨C, hC, hCmem⟩ := ih h' hD
        exact ⟨C, hC, by rw [chain_concat]; exact List.mem_cons_of_mem _ hCmem⟩

theorem mem_chain_of_child {C D p : FolderPath}
    (hchild : childOf C D) (hC : C ∈ chain p) :
    D ∈ chain p ∧ p ≠ D := by
  obtain ⟨hCne, hCdrop⟩ := hchild
  have hDC : D ∈ chain C := by
    rw [chain_of_ne_nil _ hCne, hCdrop]
    exact List.mem_cons_of_mem _ (self_mem_chain D)
  refine ⟨chain_subset_of_mem hC D hDC, fun hpD => ?_⟩
  have h1 := length_le_of_mem_chain hC
  have h2 : D.length = C.length - 1 := by
    rw [← hCdrop, List.length_dropLast]
  have h3 : 0 < C.length := List.length_pos.mpr hCne
  rw [hpD] at h1
  omega

/-! ## Effect of the roll-up on counts, presence, and keys -/

theorem lookupCount_addAt (agg : List (FolderPath × SummaryInfo)) (e : FolderPath)
    (ft : FileExtension) (i : PerFileInfo) (D : FolderPath) (T : FileExtension) :
    lookupCount (addAt agg e ft i) D T
      = lookupCount agg D T + (if D = e ∧ T = ft then i.count else 0) := by
  unfold lookupCount typeLookup addAt
  by_cases hD : D = e
  · subst hD
    rw [alookup_lookup_entryMod_self]
    dsimp only
    by_cases hT : T = ft
    · subst hT
      rw [alookup_lookup_entryMod_self]
      rcases h1 : alookup agg D with _ | inner <;>
        simp only [h1, Option.getD_some, Option.getD_none]
      · simp [alookup]
      · rcases h2 : alookup inner T with _ | j <;> simp [h2]
    · rw [alookup_lookup_entryMod_ne _ _ _ _ _ hT]
      rcases h1 : alookup agg D with _ | inner <;>
        simp only [h1, Option.getD_some, Option.getD_none]
      · simp [alookup, hT]
      · rcases h2 : alookup inner T with _ | j <;> simp [h2, hT]
  · rw [alookup_lookup_entryMod_ne _ _ _ _ _ hD]
    rcases h1 : alookup agg D with _ | inner <;> simp [h1, hD]

theorem typeLookup_addAt_none_iff (agg : List (FolderPath × SummaryInfo))
    (e : FolderPath) (ft : FileExtension) (i : PerFileInfo) (D : FolderPath)
    (T : FileExtension) :
    typeLookup (addAt agg e ft i) D T = none
      ↔ typeLookup agg D T = none ∧ ¬(D = e ∧ T = ft) := by
  unfold typeLookup addAt
  by_cases hD : D = e
  · subst hD
    rw [alookup_lookup_entryMod_self]
    dsimp only
    by_cases hT : T = ft
    · subst hT
      rw [alookup_lookup_entryMod_self]
      simp
    · rw [alookup_lookup_entryMod_ne _ _ _ _ _ hT]
      rcases h1 : alookup agg D with _ | inner <;> simp [alookup, hT]
  · rw [alookup_lookup_entryMod_ne _ _ _ _ _ hD]
    rcases h1 : alookup agg D with _ | inner <;> simp [hD]

theorem mem_keys_addAt (agg : List (FolderPath × SummaryInfo)) (e a : FolderPath)
    (ft : FileExtension) (i : PerFileInfo) :
    a ∈ (addAt agg e ft i).map Prod.fst ↔ a ∈ agg.map Prod.fst ∨ a = e :=
  mem_keys_entryMod ..

theorem nodup_keys_addAt (agg : List (FolderPath × SummaryInfo)) (e : FolderPath)
    (ft : FileExtension) (i : PerFileInfo)
    (h : (agg.map Prod.fst).Nodup) : ((addAt agg e ft i).map Prod.fst).Nodup :=
  nodup_keys_entryMod _ _ _ _ h

theorem rollupWalk_eq_foldl (agg : List (FolderPath × SummaryInfo))
    (dir : FolderPath) (ft : FileExtension) (i : PerFileInfo) :
    rollupWalk agg dir ft i = (chain dir).foldl (fun a e => addAt a e ft i) agg := by
  induction dir using List.reverseRecOn generalizing agg with
  | nil =>
    rw [rollupWalk, chain_nil]
    simp
  | append_singleton l x ih =>
    rw [rollupWalk, chain_concat]
    simp only [List.dropLast_concat, List.foldl_cons]
    rw [dif_neg (by simp), ih]

theorem occCount_of_not_mem {L : List FolderPath} {D : FolderPath}
    (h : D ∉ L) : occCount L D = 0 := by
  induction L with
  | nil => rfl
  | cons e L ih =>
    simp only [List.mem_cons, not_or] at h
    simp [occCount, List.map_cons, List.sum_cons, Ne.symm h.1]
    simpa [occCount] using ih h.2

theorem occCount_of_nodup_of_mem {L : List FolderPath} {D : FolderPath}
    (hnd : L.Nodup) (h : D ∈ L) : occCount L D = 1 := by
  induction L with
  | nil => simp at h
  | cons e L ih =>
    rw [List.nodup_cons] at hnd
    rcases List.mem_cons.mp h with rfl | h'
    · have : occCount L D = 0 := occCount_of_not_mem hnd.1
      simp [occCount] at this ⊢
      simp [this]
    · have he : e ≠ D := by rintro rfl; exact hnd.1 h'
      have := ih hnd.2 h'
      simp [occCount] at this ⊢
      simp [he, this]

theorem lookupCount_foldl_addAt (L : List FolderPath)
    (agg : List (FolderPath × SummaryInfo)) (ft : FileExtension) (i : PerFileInfo)
    (D : FolderPath) (T : FileExtension) :
    lookupCount (L.foldl (fun a e => addAt a e ft i) agg) D T
      = lookupCount agg D T + occCount L D * (if T = ft then i.count else 0) := by
  induction L generalizing agg with
  | nil => simp [occCount]
  | cons e L ih =>
    rw [List.foldl_cons, ih, lookupCount_addAt]
    have : occCount (e :: L) D = (if e = D then (1 : Int) else 0) + occCount L D := by
      simp [occCount]
    rw [this]
    by_cases he : e = D <;> by_cases hT : T = ft <;>
      simp [he, hT, eq_comm (a := D) (b := e)] <;> ring

theorem typeLookup_foldl_addAt_none_iff (L : List FolderPath)
    (agg : List (FolderPath × SummaryInfo)) (ft : FileExtension) (i : PerFileInfo)
    (D : FolderPath) (T : FileExtension) :
    typeLookup (L.foldl (fun a e => addAt a e ft i) agg) D T = none
      ↔ typeLookup agg D T = none ∧ ¬(D ∈ L ∧ T = ft) := by
  induction L generalizing agg with
  | nil => simp
  | cons e L ih =>
    rw [List.foldl_cons, ih, typeLookup_addAt_none_iff]
    simp only [List.mem_cons]
    tauto

theorem mem_keys_foldl_addAt (L : List FolderPath)
    (agg : List (FolderPath × SummaryInfo)) (ft : FileExtension) (i : PerFileInfo)
    (a : FolderPath) :
    a ∈ ((L.foldl (fun acc e => addAt acc e ft i) agg).map Prod.fst)
      ↔ a ∈ agg.map Prod.fst ∨ a ∈ L := by
  induction L generalizing agg with
  | nil => simp
  | cons e L ih =>
    rw [List.foldl_cons, ih, mem_keys_addAt]
    simp only [List.mem_cons]
    tauto

theorem nodup_keys_foldl_addAt (L : List FolderPath)
    (agg : List (FolderPath × SummaryInfo)) (ft : FileExtension) (i : PerFileInfo)
    (h : (agg.map Prod.fst).Nodup) :
    (((L.foldl (fun acc e => addAt acc e ft i) agg)).map Prod.fst).Nodup := by
  induction L generalizing agg with
  | nil => exact h
  | cons e L ih => exact ih _ (nodup_keys_addAt _ _ _ _ h)

theorem lookupCount_rollupWalk (agg : List (FolderPath × SummaryInfo))
    (dir : FolderPath) (ft : FileExtension) (i : PerFileInfo)
    (D : FolderPath) (T : FileExtension) :
    lookupCount (rollupWalk agg dir ft i) D T
      = lookupCount agg D T + (if D ∈ chain dir ∧ T = ft then i.count else 0) := by
  rw [rollupWalk_eq_foldl, lookupCount_foldl_addAt]
  by_cases hmem : D ∈ chain dir
  · rw [occCount_of_nodup_of_mem (chain_nodup dir) hmem]
    by_cases hT : T = ft <;> simp [hmem, hT]
  · rw [occCount_of_not_mem hmem]
    simp [hmem]

/-- One direct-map entry's contribution to the aggregated count. -/
theorem lookupCount_entryFold (p : FolderPath) (st : SummaryInfo)
    (agg : List (FolderPath × SummaryInfo)) (D : FolderPath) (T : FileExtension) :
    lookupCount (st.foldl (fun a2 te => rollupWalk a2 p te.1 te.2) agg) D T
      = lookupCount agg D T + (if D ∈ chain p then sumTypeEntries st T else 0) := by
  induction st generalizing agg with
  | nil => simp [sumTypeEntries]
  | cons te st ih =>
    rw [List.foldl_cons, ih, lookupCount_rollupWalk]
    have hsum : sumTypeEntries (te :: st) T
        = (if te.1 = T then te.2.count else 0) + sumTypeEntries st T := by
      simp [sumTypeEntries]
    rw [hsum]
    by_cases hmem : D ∈ chain p <;> by_cases hT : T = te.1 <;>
      simp [hmem, hT, eq_comm (a := te.1) (b := T)] <;> ring

theorem typeLookup_entryFold_none_iff (p : FolderPath) (st : SummaryInfo)
    (agg : List (FolderPath × SummaryInfo)) (D : FolderPath) (T : FileExtension) :
    typeLookup (st.foldl (fun a2 te => rollupWalk a2 p te.1 te.2) agg) D T = none
      ↔ typeLookup agg D T = none ∧ ¬(D ∈ chain p ∧ ∃ i, (T, i) ∈ st) := by
  induction st generalizing agg with
  | nil => simp
  | cons te st ih =>
    rw [List.foldl_cons, ih, rollupWalk_eq_foldl, typeLookup_foldl_addAt_none_iff]
    simp only [List.mem_cons, Prod.ext_iff]
    constructor
    · rintro ⟨⟨h1, h2⟩, h3⟩
      refine ⟨h1, ?_⟩
      rintro ⟨hmem, i, hi | hi⟩
      · exact h2 ⟨hmem, hi.1⟩
      · exact h3 ⟨hmem, i, hi⟩
    · rintro ⟨h1, h2⟩
      refine ⟨⟨h1, ?_⟩, ?_⟩
      · rintro ⟨hmem, hT⟩
        exact h2 ⟨hmem, te.2, Or.inl ⟨hT, rfl⟩⟩
      · rintro ⟨hmem, i, hi⟩
        exact h2 ⟨hmem, i, Or.inr hi⟩

theorem mem_keys_entryFold (p : FolderPath) (st : SummaryInfo)
    (agg : List (FolderPath × SummaryInfo)) (a : FolderPath) :
    a ∈ ((st.foldl (fun a2 te => rollupWalk a2 p te.1 te.2) agg).map Prod.fst)
      ↔ a ∈ agg.map Prod.fst ∨ (st ≠ [] ∧ a ∈ chain p) := by
  induction st generalizing agg with
  | nil => simp
  | cons te st ih =>
    rw [List.foldl_cons, ih, rollupWalk_eq_foldl, mem_keys_foldl_addAt]
    rcases st with _ | ⟨te', st'⟩ <;> simp <;> tauto

theorem nodup_keys_entryFold (p : FolderPath) (st : SummaryInfo)
    (agg : List (FolderPath × SummaryInfo))
    (h : (agg.map Prod.fst).Nodup) :
    ((st.foldl (fun a2 te => rollupWalk a2 p te.1 te.2) agg).map Prod.fst).Nodup := by
  induction st generalizing agg with
  | nil => exact h
  | cons te st ih =>
    rw [List.foldl_cons, rollupWalk_eq_foldl]
    exact ih _ (nodup_keys_foldl_addAt _ _ _ _ h)

theorem lookupCount_rollUp_foldl (direct : List (FolderPath × SummaryInfo))
    (agg : List (FolderPath × SummaryInfo)) (D : FolderPath) (T : FileExtension) :
    lookupCount
        (direct.foldl
          (fun acc e => e.2.foldl (fun a2 te => rollupWalk a2 e.1 te.1 te.2) acc) agg) D T
      = lookupCount agg D T + subtreeCount direct D T := by
  induction direct generalizing agg with
  | nil => simp [subtreeCount]
  | cons e direct ih =>
    rw [List.foldl_cons, ih, lookupCount_entryFold]
    have : subtreeCount (e :: direct) D T
        = (if D ∈ chain e.1 then sumTypeEntries e.2 T else 0) + subtreeCount direct D T := by
      simp [subtreeCount]
    rw [this]
    ring

/-- The aggregated count at `(D, T)` is the total direct count over
`D`'s subtree. -/
theorem lookupCount_rollUp (direct : List (FolderPath × SummaryInfo))
    (D : FolderPath) (T : FileExtension) :
    lookupCount (rollUp direct) D T = subtreeCount direct D T := by
  unfold rollUp
  rw [lookupCount_rollUp_foldl]
  simp [lookupCount, typeLookup, alookup]

theorem typeLookup_rollUp_none_iff (direct : List (FolderPath × SummaryInfo))
    (D : FolderPath) (T : FileExtension) :
    typeLookup (rollUp direct) D T = none
      ↔ ∀ e ∈ direct, ¬(D ∈ chain e.1 ∧ ∃ i, (T, i) ∈ e.2) := by
  unfold rollUp
  suffices h : ∀ agg, typeLookup
        (direct.foldl
          (fun acc e => e.2.foldl (fun a2 te => rollupWalk a2 e.1 te.1 te.2) acc) agg) D T = none
      ↔ typeLookup agg D T = none ∧ ∀ e ∈ direct, ¬(D ∈ chain e.1 ∧ ∃ i, (T, i) ∈ e.2) by
    rw [h]
    simp [typeLookup, alookup]
  intro agg
  induction direct generalizing agg with
  | nil => simp
  | cons e direct ih =>
    rw [List.foldl_cons, ih, typeLookup_entryFold_none_iff]
    simp only [List.mem_cons]
    constructor
    · rintro ⟨⟨h1, h2⟩, h3⟩
      refine ⟨h1, ?_⟩
      rintro e' (rfl | he')
      · exact h2
      · exact h3 e' he'
    · rintro ⟨h1, h2⟩
      exact ⟨⟨h1, h2 e (Or.inl rfl)⟩, fun e' he' => h2 e' (Or.inr he')⟩

theorem mem_keys_rollUp (direct : List (FolderPath × SummaryInfo)) (a : FolderPath) :
    a ∈ (rollUp direct).map Prod.fst ↔ ∃ e ∈ direct, e.2 ≠ [] ∧ a ∈ chain e.1 := by
  unfold rollUp
  suffices h : ∀ agg : List (FolderPath × SummaryInfo), a ∈
        ((direct.foldl
          (fun acc e => e.2.foldl (fun a2 te => rollupWalk a2 e.1 te.1 te.2) acc) agg).map Prod.fst)
      ↔ a ∈ agg.map Prod.fst ∨ ∃ e ∈ direct, e.2 ≠ [] ∧ a ∈ chain e.1 by
    rw [h]
    simp
  intro agg
  induction direct generalizing agg with
  | nil => simp
  | cons e direct ih =>
    rw [List.foldl_cons, ih, mem_keys_entryFold]
    simp only [List.mem_cons]
    constructor
    · rintro ((h1 | h2) | h3)
      · exact Or.inl h1
      · exact Or.inr ⟨e, Or.inl rfl, h2⟩
      · obtain ⟨e', he', h⟩ := h3
        exact Or.inr ⟨e', Or.inr he', h⟩
    · rintro (h1 | ⟨e', (rfl | he'), h⟩)
      · exact Or.inl (Or.inl h1)
      · exact Or.inl (Or.inr h)
      · exact Or.inr ⟨e', he', h⟩

theorem nodup_keys_rollUp (direct : List (FolderPath × SummaryInfo)) :
    ((rollUp direct).map Prod.fst).Nodup := by
  unfold rollUp
  suffices h : ∀ agg : List (FolderPath × SummaryInfo), (agg.map Prod.fst).Nodup →
      ((direct.foldl
        (fun acc e => e.2.foldl (fun a2 te => rollupWalk a2 e.1 te.1 te.2) acc) agg).map
          Prod.fst).Nodup by
    exact h [] (by simp)
  induction direct with
  | nil => exact fun agg hagg => hagg
  | cons e direct ih =>
    intro agg hagg
    rw [List.foldl_cons]
    exact ih _ (nodup_keys_entryFold _ _ _ hagg)

/-! ## Characterization of the direct (non-recursive) build -/

theorem typeLookup_processFile (c : PathC → FileClassification)
    (m : List (FolderPath × SummaryInfo)) (f : PathC) (D : FolderPath)
    (T : FileExtension) :
    typeLookup (processFile c m f) D T =
      if fileMatches c D T f then
        match typeLookup m D T with
        | some j => some ⟨j.count + 1, j.display_name⟩
        | none => some ⟨1, (c f).file_type_simple⟩
      else typeLookup m D T := by
  unfold processFile typeLookup fileMatches
  by_cases hft : (c f).file_type = ""
  · rw [if_neg (by rintro ⟨h1, rfl, h3⟩; exact h3 hft)]
    by_cases hD : D = f.dropLast
    · subst hD
      rw [alookup_lookup_entryMod_self]
      dsimp only
      rw [if_pos hft]
      rcases h1 : alookup m f.dropLast with _ | inner <;> simp [h1, alookup]
    · rw [alookup_lookup_entryMod_ne _ _ _ _ _ hD]
  · by_cases hD : D = f.dropLast
    · subst hD
      rw [alookup_lookup_entryMod_self]
      dsimp only
      rw [if_neg hft]
      by_cases hT : T = (c f).file_type
      · subst hT
        rw [if_pos ⟨rfl, rfl, hft⟩, alookup_lookup_entryMod_self]
        rcases h1 : alookup m f.dropLast with _ | inner
        · simp [h1, alookup]
        · rcases h2 : alookup inner (c f).file_type with _ | j <;> simp [h1, h2]
      · rw [if_neg (by rintro ⟨hx1, rfl, hx3⟩; exact hT rfl),
          alookup_lookup_entryMod_ne _ _ _ _ _ hT]
        rcases h1 : alookup m f.dropLast with _ | inner <;> simp [h1, alookup]
    · rw [if_neg (by rintro ⟨hx1, hx2, hx3⟩; exact hD hx1.symm),
        alookup_lookup_entryMod_ne _ _ _ _ _ hD]

theorem typeLookup_buildDirect_foldl (c : PathC → FileClassification)
    (fs : List PathC) (m : List (FolderPath × SummaryInfo)) (D : FolderPath)
    (T : FileExtension) :
    typeLookup (fs.foldl (processFile c) m) D T =
      match typeLookup m D T with
      | some j => some ⟨j.count + matchCount c D T fs, j.display_name⟩
      | none =>
        match firstMatch c D T fs with
        | some f0 => some ⟨matchCount c D T fs, (c f0).file_type_simple⟩
        | none => none := by
  induction fs generalizing m with
  | nil =>
    rcases h : typeLookup m D T with _ | j <;>
      simp [h, matchCount, firstMatch]
  | cons f fs ih =>
    rw [List.foldl_cons, ih, typeLookup_processFile]
    have hcnt : matchCount c D T (f :: fs)
        = (if fileMatches c D T f then (1 : Int) else 0) + matchCount c D T fs := by
      simp [matchCount]
    by_cases hf : fileMatches c D T f
    · rw [if_pos hf]
      have hfind : firstMatch c D T (f :: fs) = some f := by
        simp [firstMatch, List.find?_cons, hf]
      rcases h : typeLookup m D T with _ | j
      · simp [h, hcnt, hfind, if_pos hf]
      · simp [h, hcnt, hfind, if_pos hf, add_assoc]
    · rw [if_neg hf]
      have hfind : firstMatch c D T (f :: fs) = firstMatch c D T fs := by
        simp [firstMatch, List.find?_cons, hf]
      rcases h : typeLookup m D T with _ | j
      · rcases h2 : firstMatch c D T fs with _ | f0 <;>
          simp [h, h2, hcnt, hf, hfind]
      · simp [h, hcnt, hf, hfind]

theorem typeLookup_buildDirect (c : PathC → FileClassification)
    (fs : List PathC) (D : FolderPath) (T : FileExtension) :
    typeLookup (buildDirect c fs) D T =
      match firstMatch c D T fs with
      | some f0 => some ⟨matchCount c D T fs, (c f0).file_type_simple⟩
      | none => none := by
  unfold buildDirect
  rw [typeLookup_buildDirect_foldl]
  simp [typeLookup, alookup]

theorem matchCount_eq_zero_of_no_match {c : PathC → FileClassification}
    {fs : List PathC} {D : FolderPath} {T : FileExtension}
    (h : firstMatch c D T fs = none) : matchCount c D T fs = 0 := by
  induction fs with
  | nil => rfl
  | cons f fs ih =>
    rw [firstMatch, List.find?_cons] at h
    rcases hf : decide (fileMatches c D T f) with _ | _
    · rw [hf] at h
      have := ih h
      have hf' : ¬fileMatches c D T f := of_decide_eq_false hf
      simp [matchCount, hf'] at this ⊢
      exact this
    · rw [hf] at h
      simp at h

theorem matchCount_pos_of_match {c : PathC → FileClassification}
    {fs : List PathC} {D : FolderPath} {T : FileExtension} {f0 : PathC}
    (h : firstMatch c D T fs = some f0) : 1 ≤ matchCount c D T fs := by
  induction fs with
  | nil => simp [firstMatch] at h
  | cons f fs ih =>
    rw [firstMatch, List.find?_cons] at h
    have hnonneg : 0 ≤ matchCount c D T fs := by
      unfold matchCount
      refine List.sum_nonneg ?_
      intro x hx
      simp only [List.mem_map] at hx
      obtain ⟨f', _, rfl⟩ := hx
      split <;> simp
    rcases hf : decide (fileMatches c D T f) with _ | _
    · rw [hf] at h
      have := ih h
      have hf' : ¬fileMatches c D T f := of_decide_eq_false hf
      simp only [matchCount, List.map_cons, List.sum_cons, if_neg hf']
      have : matchCount c D T fs = (fs.map
          (fun f => if fileMatches c D T f then (1 : Int) else 0)).sum := rfl
      omega
    · have hf' : fileMatches c D T f := of_decide_eq_true hf
      simp only [matchCount, List.map_cons, List.sum_cons, if_pos hf']
      have : matchCount c D T fs = (fs.map
          (fun f => if fileMatches c D T f then (1 : Int) else 0)).sum := rfl
      omega

theorem lookupCount_buildDirect (c : PathC → FileClassification)
    (fs : List PathC) (D : FolderPath) (T : FileExtension) :
    lookupCount (buildDirect c fs) D T = matchCount c D T fs := by
  unfold lookupCount
  rw [typeLookup_buildDirect]
  rcases h : firstMatch c D T fs with _ | f0
  · simp [matchCount_eq_zero_of_no_match h]
  · simp

/-! ## Characterization of the recursive aggregate in terms of files -/

theorem sumTypeEntries_entryMod_inc (inner : SummaryInfo) (tf : FileExtension)
    (disp : String) (T : FileExtension) :
    sumTypeEntries (entryMod inner tf ⟨0, disp⟩
        (fun i => { i with count := i.count + 1 })) T
      = sumTypeEntries inner T + (if tf = T then 1 else 0) := by
  unfold sumTypeEntries
  rw [sum_map_entryMod]
  rcases h : alookup inner tf with _ | v <;> by_cases hT : tf = T <;>
    simp [h, hT]

theorem sumTypeEntries_innerStep (c : PathC → FileClassification) (f : PathC)
    (v : SummaryInfo) (T : FileExtension) :
    sumTypeEntries
        (if (c f).file_type = "" then v
         else entryMod v (c f).file_type ⟨0, (c f).file_type_simple⟩
           (fun i => { i with count := i.count + 1 })) T
      = sumTypeEntries v T + (if (c f).file_type = T ∧ T ≠ "" then 1 else 0) := by
  by_cases hft : (c f).file_type = ""
  · rw [if_pos hft]
    have hno : ¬((c f).file_type = T ∧ T ≠ "") := by
      rintro ⟨rfl, h3⟩
      exact h3 hft
    simp [hno]
  · rw [if_neg hft, sumTypeEntries_entryMod_inc]
    by_cases hT : (c f).file_type = T
    · have hTne : T ≠ "" := hT ▸ hft
      simp [hT, hTne]
    · simp [hT]

theorem subtreeCount_processFile (c : PathC → FileClassification)
    (m : List (FolderPath × SummaryInfo)) (f : PathC) (D : FolderPath)
    (T : FileExtension) :
    subtreeCount (processFile c m f) D T
      = subtreeCount m D T + (if subtreeMatches c D T f then 1 else 0) := by
  unfold subtreeCount subtreeMatches
  have h1 : processFile c m f = entryMod m f.dropLast []
      (fun summaries =>
        if (c f).file_type = "" then summaries
        else
          entryMod summaries (c f).file_type ⟨0, (c f).file_type_simple⟩
            (fun i => { i with count := i.count + 1 })) := rfl
  rw [h1, sum_map_entryMod]
  dsimp only
  congr 1
  rcases h : alookup m f.dropLast with _ | v <;> dsimp only
  · by_cases hmem : D ∈ chain f.dropLast
    · rw [if_pos hmem, sumTypeEntries_innerStep]
      have hz : sumTypeEntries [] T = 0 := rfl
      rw [hz, zero_add]
      by_cases hc : (c f).file_type = T ∧ T ≠ "" <;> simp [hc, hmem]
    · simp [hmem]
  · by_cases hmem : D ∈ chain f.dropLast
    · rw [if_pos hmem, if_pos hmem, sumTypeEntries_innerStep]
      by_cases hc : (c f).file_type = T ∧ T ≠ "" <;> simp [hc, hmem]
    · simp [hmem]

theorem subtreeCount_buildDirect (c : PathC → FileClassification)
    (fs : List PathC) (D : FolderPath) (T : FileExtension) :
    subtreeCount (buildDirect c fs) D T = subtreeMatchCount c D T fs := by
  unfold buildDirect
  suffices h : ∀ m : List (FolderPath × SummaryInfo),
      subtreeCount (fs.foldl (processFile c) m) D T
        = subtreeCount m D T + subtreeMatchCount c D T fs by
    rw [h []]
    simp [subtreeCount]
  induction fs with
  | nil =>
    intro m
    simp [subtreeMatchCount]
  | cons f fs ih =>
    intro m
    rw [List.foldl_cons, ih, subtreeCount_processFile]
    have : subtreeMatchCount c D T (f :: fs)
        = (if subtreeMatches c D T f then (1 : Int) else 0) + subtreeMatchCount c D T fs := by
      simp [subtreeMatchCount]
    rw [this]
    ring

/-! ## The parent/child decomposition of the recursive counts -/

theorem alookup_mem {α β : Type _} [DecidableEq α]
    {m : List (α × β)} {k : α} {v : β} (h : alookup m k = some v) : (k, v) ∈ m := by
  induction m with
  | nil => simp [alookup] at h
  | cons hd tl ih =>
    obtain ⟨k', v'⟩ := hd
    by_cases hk : k = k'
    · subst hk
      rw [alookup, if_pos rfl] at h
      obtain rfl := Option.some.injEq .. ▸ h
      exact List.mem_cons_self ..
    · rw [alookup, if_neg hk] at h
      exact List.mem_cons_of_mem _ (ih h)

theorem sum_map_add_distrib {α : Type _} (l : List α) (f g : α → Int) :
    (l.map (fun x => f x + g x)).sum = (l.map f).sum + (l.map g).sum := by
  induction l with
  | nil => simp
  | cons a l ih =>
    simp [ih]
    ring

theorem sum_map_sub_distrib {α : Type _} (l : List α) (f g : α → Int) :
    (l.map (fun x => f x - g x)).sum = (l.map f).sum - (l.map g).sum := by
  induction l with
  | nil => simp
  | cons a l ih =>
    simp [ih]
    ring

theorem sum_map_swap {α β : Type _} (l₁ : List α) (l₂ : List β) (F : α → β → Int) :
    (l₁.map (fun a => (l₂.map (fun b => F a b)).sum)).sum
      = (l₂.map (fun b => (l₁.map (fun a => F a b)).sum)).sum := by
  induction l₁ with
  | nil =>
    simp only [List.map_nil, List.sum_nil]
    rw [List.map_congr_left (g := fun _ => (0 : Int)) (fun b _ => rfl)]
    simp
  | cons a l₁ ih =>
    simp only [List.map_cons, List.sum_cons, ih]
    rw [← sum_map_add_distrib]

theorem sum_if_unique_key (L : List (FolderPath × SummaryInfo))
    (P : FolderPath × SummaryInfo → Prop) [DecidablePred P]
    (hnd : (L.map Prod.fst).Nodup)
    (hkey : ∀ e e', P e → P e' → e.1 = e'.1) :
    (L.map (fun e => if P e then (1 : Int) else 0)).sum
      = if ∃ e ∈ L, P e then 1 else 0 := by
  induction L with
  | nil => simp
  | cons e L ih =>
    simp only [List.map_cons, List.nodup_cons] at hnd
    simp only [List.map_cons, List.sum_cons]
    by_cases hPe : P e
    · rw [if_pos hPe]
      have hzero : (L.map (fun e' => if P e' then (1 : Int) else 0)).sum = 0 := by
        have hall : ∀ e' ∈ L, (if P e' then (1 : Int) else 0) = 0 := by
          intro e' he'
          rw [if_neg]
          intro hPe'
          have hke : e'.1 = e.1 := hkey e' e hPe' hPe
          refine hnd.1 ?_
          rw [← hke]
          exact List.mem_map.mpr ⟨e', he', rfl⟩
        rw [List.map_congr_left hall]
        simp
      rw [hzero, if_pos ⟨e, List.mem_cons_self .., hPe⟩]
      ring
    · rw [if_neg hPe, ih hnd.2, zero_add]
      by_cases hex : ∃ x ∈ L, P x <;> simp [hPe, hex]

theorem childOf_length {C D : FolderPath} (h : childOf C D) :
    C.length = D.length + 1 := by
  obtain ⟨hne, hdrop⟩ := h
  have h1 : 0 < C.length := List.length_pos.mpr hne
  have h2 : D.length = C.length - 1 := by rw [← hdrop, List.length_dropLast]
  omega

theorem fileMatches_subtreeMatches {c : PathC → FileClassification}
    {D : FolderPath} {T : FileExtension} {f : PathC}
    (h : fileMatches c D T f) : subtreeMatches c D T f := by
  obtain ⟨hdrop, htype, hTne⟩ := h
  exact ⟨hdrop ▸ self_mem_chain _, htype, hTne⟩

/-- The key `C` appears in the aggregated map whenever some file lies at
or below `C` and classifies to a nonempty type. -/
theorem exists_agg_entry (c : PathC → FileClassification) (fs : List PathC)
    {C : FolderPath} {T : FileExtension} {f : PathC}
    (hf : f ∈ fs) (hC : C ∈ chain f.dropLast)
    (htype : (c f).file_type = T) (hTne : T ≠ "") :
    ∃ e ∈ rollUp (buildDirect c fs), e.1 = C := by
  have hfm : fileMatches c f.dropLast T f := ⟨rfl, htype, hTne⟩
  have hfind : firstMatch c f.dropLast T fs ≠ none := by
    intro hnone
    rw [firstMatch, List.find?_eq_none] at hnone
    exact hnone f hf (decide_eq_true hfm)
  rcases h0 : firstMatch c f.dropLast T fs with _ | f0
  · exact absurd h0 hfind
  · have htl : typeLookup (buildDirect c fs) f.dropLast T
        = some ⟨matchCount c f.dropLast T fs, (c f0).file_type_simple⟩ := by
      rw [typeLookup_buildDirect, h0]
    unfold typeLookup at htl
    rcases h1 : alookup (buildDirect c fs) f.dropLast with _ | inner
    · rw [h1] at htl
      simp at htl
    · rw [h1] at htl
      have hinner_ne : inner ≠ [] := by
        rintro rfl
        simp [alookup] at htl
      have hmem : C ∈ (rollUp (buildDirect c fs)).map Prod.fst :=
        (mem_keys_rollUp _ _).mpr ⟨(f.dropLast, inner), alookup_mem h1, hinner_ne, hC⟩
      obtain ⟨e, he, hek⟩ := List.mem_map.mp hmem
      exact ⟨e, he, hek⟩

/-- Per-file evaluation of the child-entry indicator sum over the
aggregated map. -/
theorem childSum_term_eval (c : PathC → FileClassification) (fs : List PathC)
    (D : FolderPath) (T : FileExtension) (f : PathC) (hf : f ∈ fs) :
    ((rollUp (buildDirect c fs)).map
        (fun e => if childOf e.1 D ∧ subtreeMatches c e.1 T f then (1 : Int) else 0)).sum
      = if subtreeMatches c D T f ∧ ¬fileMatches c D T f then 1 else 0 := by
  rw [sum_if_unique_key _ _ (nodup_keys_rollUp _) (by
    rintro e e' ⟨hc, hs, _, _⟩ ⟨hc', hs', _, _⟩
    exact eq_of_mem_chain_of_length_eq hs hs'
      (by rw [childOf_length hc, childOf_length hc']))]
  congr 1
  rw [eq_iff_iff]
  constructor
  · rintro ⟨e, he, hc, hs, htype, hTne⟩
    obtain ⟨hD, hne⟩ := mem_chain_of_child hc hs
    refine ⟨⟨hD, htype, hTne⟩, ?_⟩
    rintro ⟨hdrop, _, _⟩
    exact hne hdrop
  · rintro ⟨⟨hD, htype, hTne⟩, hnfm⟩
    have hne : f.dropLast ≠ D := by
      rintro rfl
      exact hnfm ⟨rfl, htype, hTne⟩
    obtain ⟨C, hchild, hCmem⟩ := exists_child_of_mem_chain hD (Ne.symm hne)
    obtain ⟨e, he, hek⟩ := exists_agg_entry c fs hf hCmem htype hTne
    exact ⟨e, he, hek ▸ hchild, hek ▸ ⟨hCmem, htype, hTne⟩⟩

/-- The sum over the aggregated entries of the direct children of `D` of
their counts equals the number of classified type-`T` files strictly
below `D`. -/
theorem childSum_rollUp_buildDirect (c : PathC → FileClassification)
    (fs : List PathC) (D : FolderPath) (T : FileExtension) :
    childSum (rollUp (buildDirect c fs)) D T
      = subtreeMatchCount c D T fs - matchCount c D T fs := by
  unfold childSum
  have hA : ∀ e ∈ rollUp (buildDirect c fs),
      (if childOf e.1 D then
        match alookup e.2 T with
        | some i => i.count
        | none => 0
       else (0 : Int))
      = if childOf e.1 D then subtreeMatchCount c e.1 T fs else 0 := by
    intro e he
    by_cases hc : childOf e.1 D
    · rw [if_pos hc, if_pos hc]
      have h1 : alookup (rollUp (buildDirect c fs)) e.1 = some e.2 :=
        alookup_of_mem_nodup (nodup_keys_rollUp _) he
      have h3 : typeLookup (rollUp (buildDirect c fs)) e.1 T = alookup e.2 T := by
        unfold typeLookup
        rw [h1]
      have h4 : lookupCount (rollUp (buildDirect c fs)) e.1 T
          = match alookup e.2 T with
            | some i => i.count
            | none => 0 := by
        unfold lookupCount
        rw [h3]
      rw [← h4, lookupCount_rollUp, subtreeCount_buildDirect]
    · rw [if_neg hc, if_neg hc]
  rw [List.map_congr_left hA]
  have hB : ∀ e ∈ rollUp (buildDirect c fs),
      (if childOf e.1 D then subtreeMatchCount c e.1 T fs else (0 : Int))
      = (fs.map (fun f =>
          if childOf e.1 D ∧ subtreeMatches c e.1 T f then (1 : Int) else 0)).sum := by
    intro e _
    by_cases hc : childOf e.1 D
    · rw [if_pos hc]
      unfold subtreeMatchCount
      congr 1
      refine List.map_congr_left (fun f _ => ?_)
      simp [hc]
    · rw [if_neg hc]
      have hall : ∀ f ∈ fs,
          (if childOf e.1 D ∧ subtreeMatches c e.1 T f then (1 : Int) else 0) = 0 := by
        intro f _
        simp [hc]
      rw [List.map_congr_left hall]
      simp
  rw [List.map_congr_left hB, sum_map_swap]
  have hD : ∀ f ∈ fs,
      ((rollUp (buildDirect c fs)).map
        (fun e => if childOf e.1 D ∧ subtreeMatches c e.1 T f then (1 : Int) else 0)).sum
      = (if subtreeMatches c D T f then (1 : Int) else 0)
        - (if fileMatches c D T f then (1 : Int) else 0) := by
    intro f hf
    rw [childSum_term_eval c fs D T f hf]
    by_cases hstm : subtreeMatches c D T f <;> by_cases hfm : fileMatches c D T f <;>
      simp [hstm, hfm]
    exact absurd (fileMatches_subtreeMatches hfm) hstm
  rw [List.map_congr_left hD, sum_map_sub_distrib]
  rfl

/-- Claim C1: in recursive mode the count for `(D, T)` equals the
non-recursive count for `(D, T)` plus the sum of the recursive counts
for `T` over the direct child directories of `D` present in the result;
and it equals the number of classified files of type `T` anywhere in
`D`'s subtree. -/
theorem recursive_count_decomposition (c : PathC → FileClassification)
    (files : List PathC) (D : FolderPath) (T : FileExtension) :
    lookupCount ((compute_dir_summaries c files true).summaries) D T
      = lookupCount ((compute_dir_summaries c files false).summaries) D T
        + childSum ((compute_dir_summaries c files true).summaries) D T
  ∧ lookupCount ((compute_dir_summaries c files true).summaries) D T
      = subtreeMatchCount c D T files := by
  have hrec : (compute_dir_summaries c files true).summaries
      = rollUp (buildDirect c files) := rfl
  have hdir : (compute_dir_summaries c files false).summaries
      = buildDirect c files := rfl
  rw [hrec, hdir, lookupCount_rollUp, subtreeCount_buildDirect, lookupCount_buildDirect,
    childSum_rollUp_buildDirect]
  constructor
  · ring
  · rfl

/-! ## Presence characterizations in terms of the input files -/

theorem nodup_keys_buildDirect (c : PathC → FileClassification) (fs : List PathC) :
    ((buildDirect c fs).map Prod.fst).Nodup := by
  unfold buildDirect
  suffices h : ∀ m : List (FolderPath × SummaryInfo), (m.map Prod.fst).Nodup →
      ((fs.foldl (processFile c) m).map Prod.fst).Nodup by
    exact h [] (by simp)
  induction fs with
  | nil => exact fun m hm => hm
  | cons f fs ih =>
    intro m hm
    rw [List.foldl_cons]
    refine ih _ ?_
    have h1 : processFile c m f = entryMod m f.dropLast []
        (fun summaries =>
          if (c f).file_type = "" then summaries
          else
            entryMod summaries (c f).file_type ⟨0, (c f).file_type_simple⟩
              (fun i => { i with count := i.count + 1 })) := rfl
    rw [h1]
    exact nodup_keys_entryMod _ _ _ _ hm

theorem typeLookup_buildDirect_none_iff (c : PathC → FileClassification)
    (fs : List PathC) (D : FolderPath) (T : FileExtension) :
    typeLookup (buildDirect c fs) D T = none
      ↔ ∀ f ∈ fs, ¬fileMatches c D T f := by
  rw [typeLookup_buildDirect]
  rcases h : firstMatch c D T fs with _ | f0
  · rw [firstMatch, List.find?_eq_none] at h
    constructor
    · intro _ f hf hm
      exact h f hf (decide_eq_true hm)
    · intro _
      rfl
  · constructor
    · intro hx
      simp at hx
    · intro hall
      rw [firstMatch] at h
      have h1 : f0 ∈ fs := List.mem_of_find?_eq_some h
      have h2 := List.find?_some h
      exact absurd (of_decide_eq_true h2) (hall f0 h1)

theorem exists_direct_entry (c : PathC → FileClassification) (fs : List PathC)
    {T : FileExtension} {f : PathC}
    (hf : f ∈ fs) (htype : (c f).file_type = T) (hTne : T ≠ "") :
    ∃ inner, alookup (buildDirect c fs) f.dropLast = some inner
      ∧ ∃ j, (T, j) ∈ inner := by
  have hfm : fileMatches c f.dropLast T f := ⟨rfl, htype, hTne⟩
  have hnone : ¬(typeLookup (buildDirect c fs) f.dropLast T = none) := by
    rw [typeLookup_buildDirect_none_iff]
    intro hall
    exact hall f hf hfm
  unfold typeLookup at hnone
  rcases h1 : alookup (buildDirect c fs) f.dropLast with _ | inner
  · rw [h1] at hnone
    dsimp only at hnone
    exact absurd rfl hnone
  · rw [h1] at hnone
    dsimp only at hnone
    rcases h2 : alookup inner T with _ | j
    · exact absurd h2 hnone
    · exact ⟨inner, rfl, j, alookup_mem h2⟩

theorem typeLookup_rollUp_buildDirect_none_iff (c : PathC → FileClassification)
    (fs : List PathC) (D : FolderPath) (T : FileExtension) :
    typeLookup (rollUp (buildDirect c fs)) D T = none
      ↔ ∀ f ∈ fs, ¬subtreeMatches c D T f := by
  rw [typeLookup_rollUp_none_iff]
  constructor
  · intro h f hf hsm
    obtain ⟨hD, htype, hTne⟩ := hsm
    obtain ⟨inner, h1, j, hj⟩ := exists_direct_entry c fs hf htype hTne
    exact h (f.dropLast, inner) (alookup_mem h1) ⟨hD, j, hj⟩
  · rintro h e he ⟨hD, j, hj⟩
    have h1 : alookup (buildDirect c fs) e.1 = some e.2 :=
      alookup_of_mem_nodup (nodup_keys_buildDirect c fs) he
    have h2 : alookup e.2 T ≠ none := by
      intro hk
      rw [alookup_eq_none_iff] at hk
      exact hk (List.mem_map.mpr ⟨(T, j), hj, rfl⟩)
    have h3 : typeLookup (buildDirect c fs) e.1 T ≠ none := by
      unfold typeLookup
      rw [h1]
      exact h2
    rw [Ne, typeLookup_buildDirect_none_iff] at h3
    push_neg at h3
    obtain ⟨f0, hf0, hm0⟩ := h3
    obtain ⟨hdrop, htype, hTne⟩ := hm0
    exact h f0 hf0 ⟨hdrop ▸ hD, htype, hTne⟩

theorem subtreeMatchCount_nonneg (c : PathC → FileClassification)
    (fs : List PathC) (D : FolderPath) (T : FileExtension) :
    0 ≤ subtreeMatchCount c D T fs := by
  unfold subtreeMatchCount
  refine List.sum_nonneg ?_
  intro x hx
  obtain ⟨f, _, rfl⟩ := List.mem_map.mp hx
  split <;> simp

theorem subtreeMatchCount_pos_of_mem {c : PathC → FileClassification}
    {fs : List PathC} {D : FolderPath} {T : FileExtension} {f : PathC}
    (hf : f ∈ fs) (hm : subtreeMatches c D T f) :
    1 ≤ subtreeMatchCount c D T fs := by
  induction fs with
  | nil => simp at hf
  | cons g fs ih =>
    have hnn : 0 ≤ subtreeMatchCount c D T fs := subtreeMatchCount_nonneg ..
    have hcons : subtreeMatchCount c D T (g :: fs)
        = (if subtreeMatches c D T g then (1 : Int) else 0) + subtreeMatchCount c D T fs := by
      simp [subtreeMatchCount]
    rcases List.mem_cons.mp hf with rfl | hf'
    · rw [hcons, if_pos hm]
      omega
    · have h1 := ih hf'
      rw [hcons]
      split <;> omega

theorem matchCount_middle (c : PathC → FileClassification) (D : FolderPath)
    (T : FileExtension) (f : PathC) (fs₁ fs₂ : List PathC)
    (hnm : ¬fileMatches c D T f) :
    matchCount c D T (fs₁ ++ f :: fs₂) = matchCount c D T (fs₁ ++ fs₂) := by
  simp [matchCount, hnm]

theorem subtreeMatchCount_middle (c : PathC → FileClassification) (D : FolderPath)
    (T : FileExtension) (f : PathC) (fs₁ fs₂ : List PathC)
    (hnm : ¬subtreeMatches c D T f) :
    subtreeMatchCount c D T (fs₁ ++ f :: fs₂) = subtreeMatchCount c D T (fs₁ ++ fs₂) := by
  simp [subtreeMatchCount, hnm]

theorem firstMatch_middle (c : PathC → FileClassification) (D : FolderPath)
    (T : FileExtension) (f : PathC) (fs₁ fs₂ : List PathC)
    (hnm : ¬fileMatches c D T f) :
    firstMatch c D T (fs₁ ++ f :: fs₂) = firstMatch c D T (fs₁ ++ fs₂) := by
  induction fs₁ with
  | nil =>
    simp only [List.nil_append, firstMatch, List.find?_cons]
    rcases hg : decide (fileMatches c D T f) with _ | _
    · rfl
    · exact absurd (of_decide_eq_true hg) hnm
  | cons g fs₁ ih =>
    simp only [firstMatch] at ih ⊢
    rw [List.cons_append, List.cons_append, List.find?_cons, List.find?_cons]
    rcases hg : decide (fileMatches c D T g) with _ | _ <;> simp [ih]

theorem matchCount_perm (c : PathC → FileClassification) (D : FolderPath)
    (T : FileExtension) {fs₁ fs₂ : List PathC} (h : fs₁.Perm fs₂) :
    matchCount c D T fs₁ = matchCount c D T fs₂ :=
  List.Perm.sum_eq (h.map _)

theorem subtreeMatchCount_perm (c : PathC → FileClassification) (D : FolderPath)
    (T : FileExtension) {fs₁ fs₂ : List PathC} (h : fs₁.Perm fs₂) :
    subtreeMatchCount c D T fs₁ = subtreeMatchCount c D T fs₂ :=
  List.Perm.sum_eq (h.map _)

/-! ## Claim theorems: aggregation -/

/-- Claim C2: on scenario A (`{a/x.png, a/y.png, a/b/z.png, c.txt}` with
`.png → "png"`, `.txt → "text"`), the non-recursive result is exactly
`a → {png:2}`, `a/b → {png:1}`, `"" → {text:1}` and the recursive result
is exactly `a → {png:3}`, `a/b → {png:1}`, `"" → {png:3, text:1}`. -/
theorem scenario_a_exact :
    compute_dir_summaries classifyA filesA false
      = ⟨1, [(["a"], [("png", ⟨2, "PNG image"⟩)]),
             (["a", "b"], [("png", ⟨1, "PNG image"⟩)]),
             ([], [("text", ⟨1, "ASCII text"⟩)])]⟩
  ∧ compute_dir_summaries classifyA filesA true
      = ⟨1, [(["a"], [("png", ⟨3, "PNG image"⟩)]),
             ([], [("png", ⟨3, "PNG image"⟩), ("text", ⟨1, "ASCII text"⟩)]),
             (["a", "b"], [("png", ⟨1, "PNG image"⟩)])]⟩ := by
  constructor
  · rfl
  · have hc1 : chain [("a" : String)] = [["a"], []] := by
      rw [chain_of_ne_nil _ (by simp)]
      show [("a" : String)] :: chain [] = _
      rw [chain_nil]
    have hc2 : chain [("a" : String), "b"] = [["a", "b"], ["a"], []] := by
      rw [chain_of_ne_nil _ (by simp)]
      show ([("a" : String), "b"]) :: chain [("a" : String)] = _
      rw [hc1]
    show (⟨1, rollUp (buildDirect classifyA filesA)⟩ : DirSummaries) = _
    have hdirect : buildDirect classifyA filesA
        = [(["a"], [("png", ⟨2, "PNG image"⟩)]),
           (["a", "b"], [("png", ⟨1, "PNG image"⟩)]),
           ([], [("text", ⟨1, "ASCII text"⟩)])] := rfl
    rw [hdirect]
    unfold rollUp
    simp only [List.foldl_cons, List.foldl_nil, rollupWalk_eq_foldl, hc1, hc2, chain_nil]
    rfl

/-- Claim C8: the ancestor walk of the roll-up is the fold of `addAt`
over the finite ancestor chain (hence terminates), that chain contains
the root exactly once and ends at the root, and the walk started at the
root processes only the root. -/
theorem rollup_walk_chain_spec (agg : List (FolderPath × SummaryInfo))
    (dir : FolderPath) (ft : FileExtension) (info : PerFileInfo) :
    rollupWalk agg dir ft info
        = (chain dir).foldl (fun a e => addAt a e ft info) agg
  ∧ occCount (chain dir) [] = 1
  ∧ (chain dir).getLast? = some []
  ∧ chain [] = [[]] :=
  ⟨rollupWalk_eq_foldl agg dir ft info,
   occCount_of_nodup_of_mem (chain_nodup dir) (nil_mem_chain dir),
   chain_getLast? dir, chain_nil⟩

/-- Claim C9: every per-type entry present in the output of
`compute_dir_summaries`, in either mode, has a strictly positive count. -/
theorem type_entry_count_positive (c : PathC → FileClassification)
    (files : List PathC) (r : Bool) (D : FolderPath) (T : FileExtension)
    (i : PerFileInfo)
    (h : typeLookup ((compute_dir_summaries c files r).summaries) D T = some i) :
    1 ≤ i.count := by
  have hcount : i.count
      = lookupCount ((compute_dir_summaries c files r).summaries) D T := by
    unfold lookupCount
    rw [h]
  cases r
  · have hsum : (compute_dir_summaries c files false).summaries
        = buildDirect c files := rfl
    rw [hsum] at h hcount
    rw [hcount, lookupCount_buildDirect]
    rcases h0 : firstMatch c D T files with _ | f0
    · rw [typeLookup_buildDirect, h0] at h
      simp at h
    · exact matchCount_pos_of_match h0
  · have hsum : (compute_dir_summaries c files true).summaries
        = rollUp (buildDirect c files) := rfl
    rw [hsum] at h hcount
    rw [hcount, lookupCount_rollUp, subtreeCount_buildDirect]
    have hne : ¬(typeLookup (rollUp (buildDirect c files)) D T = none) := by
      rw [h]
      simp
    rw [typeLookup_rollUp_buildDirect_none_iff] at hne
    push_neg at hne
    obtain ⟨f0, hf0, hm0⟩ := hne
    exact subtreeMatchCount_pos_of_mem hf0 hm0

/-- Witness for the positivity claim at a concrete entry of scenario A. -/
theorem type_entry_count_positive_witness :
    typeLookup ((compute_dir_summaries classifyA filesA false).summaries) [] "text"
        = some ⟨1, "ASCII text"⟩
  ∧ 1 ≤ (⟨1, "ASCII text"⟩ : PerFileInfo).count :=
  ⟨rfl, type_entry_count_positive classifyA filesA false [] "text" _ rfl⟩

/-- Claim C3 counterexample: a file whose classification is empty still
creates a (possibly empty) entry for its parent directory in the direct
build, so the output is not identical to the run without that file. -/
theorem empty_type_creates_dir_entry :
    (compute_dir_summaries classifyNone [["d", "f"]] false).summaries = [(["d"], [])]
  ∧ (compute_dir_summaries classifyNone [] false).summaries = []
  ∧ compute_dir_summaries classifyNone [["d", "f"]] false
      ≠ compute_dir_summaries classifyNone [] false :=
  ⟨rfl, rfl, by decide⟩

/-- Claim C3 (amended): a file with an empty type label contributes to
no `(directory, type)` entry: every per-type lookup in non-recursive
mode, and every count and entry presence in both modes, is identical to
the run with that file removed; only an empty parent-directory entry may
additionally appear in the non-recursive map. -/
theorem empty_type_no_count_effect (c : PathC → FileClassification)
    (f : PathC) (fs₁ fs₂ : List PathC) (r : Bool) (D : FolderPath)
    (T : FileExtension) (h : (c f).file_type = "") :
    typeLookup ((compute_dir_summaries c (fs₁ ++ f :: fs₂) false).summaries) D T
      = typeLookup ((compute_dir_summaries c (fs₁ ++ fs₂) false).summaries) D T
  ∧ lookupCount ((compute_dir_summaries c (fs₁ ++ f :: fs₂) r).summaries) D T
      = lookupCount ((compute_dir_summaries c (fs₁ ++ fs₂) r).summaries) D T
  ∧ (typeLookup ((compute_dir_summaries c (fs₁ ++ f :: fs₂) r).summaries) D T = none
      ↔ typeLookup ((compute_dir_summaries c (fs₁ ++ fs₂) r).summaries) D T = none) := by
  have hnf : ¬fileMatches c D T f := by
    rintro ⟨_, rfl, hTne⟩
    exact hTne h
  have hns : ¬subtreeMatches c D T f := by
    rintro ⟨_, rfl, hTne⟩
    exact hTne h
  have h1 : typeLookup (buildDirect c (fs₁ ++ f :: fs₂)) D T
      = typeLookup (buildDirect c (fs₁ ++ fs₂)) D T := by
    rw [typeLookup_buildDirect, typeLookup_buildDirect,
      firstMatch_middle c D T f fs₁ fs₂ hnf, matchCount_middle c D T f fs₁ fs₂ hnf]
  refine ⟨h1, ?_, ?_⟩
  · cases r
    · show lookupCount (buildDirect c (fs₁ ++ f :: fs₂)) D T
        = lookupCount (buildDirect c (fs₁ ++ fs₂)) D T
      rw [lookupCount_buildDirect, lookupCount_buildDirect,
        matchCount_middle c D T f fs₁ fs₂ hnf]
    · show lookupCount (rollUp (buildDirect c (fs₁ ++ f :: fs₂))) D T
        = lookupCount (rollUp (buildDirect c (fs₁ ++ fs₂))) D T
      rw [lookupCount_rollUp, lookupCount_rollUp, subtreeCount_buildDirect,
        subtreeCount_buildDirect, subtreeMatchCount_middle c D T f fs₁ fs₂ hns]
  · cases r
    · show typeLookup (buildDirect c (fs₁ ++ f :: fs₂)) D T = none
        ↔ typeLookup (buildDirect c (fs₁ ++ fs₂)) D T = none
      rw [h1]
    · show typeLookup (rollUp (buildDirect c (fs₁ ++ f :: fs₂))) D T = none
        ↔ typeLookup (rollUp (buildDirect c (fs₁ ++ fs₂))) D T = none
      rw [typeLookup_rollUp_buildDirect_none_iff, typeLookup_rollUp_buildDirect_none_iff]
      constructor
      · intro hall g hg hm
        refine hall g ?_ hm
        simp only [List.mem_append, List.mem_cons] at hg ⊢
        tauto
      · intro hall g hg hm
        simp only [List.mem_append, List.mem_cons] at hg
        rcases hg with hg | rfl | hg
        · exact hall g (by simp [hg]) hm
        · exact hns hm
        · exact hall g (by simp [hg]) hm

/-- Witness for the amended empty-type claim at a concrete input. -/
theorem empty_type_no_count_effect_witness :
    typeLookup ((compute_dir_summaries classifyNone ([] ++ ["d", "f"] :: []) false).summaries) [] "t"
      = typeLookup ((compute_dir_summaries classifyNone ([] ++ []) false).summaries) [] "t"
  ∧ lookupCount ((compute_dir_summaries classifyNone ([] ++ ["d", "f"] :: []) false).summaries) [] "t"
      = lookupCount ((compute_dir_summaries classifyNone ([] ++ []) false).summaries) [] "t"
  ∧ (typeLookup ((compute_dir_summaries classifyNone ([] ++ ["d", "f"] :: []) false).summaries) [] "t" = none
      ↔ typeLookup ((compute_dir_summaries classifyNone ([] ++ []) false).summaries) [] "t" = none) :=
  empty_type_no_count_effect classifyNone ["d", "f"] [] [] false [] "t" rfl

/-- Claim C6 counterexample: two permuted inputs whose same-type files
carry different display names yield different results (the stored
display label differs), already in the direct build. -/
theorem perm_changes_display_label :
    List.Perm [[("f" : String)], ["g"]] [["g"], ["f"]]
  ∧ compute_dir_summaries classifyTwoLabels [[("f" : String)], ["g"]] false
      ≠ compute_dir_summaries classifyTwoLabels [["g"], ["f"]] false
  ∧ typeLookup ((compute_dir_summaries classifyTwoLabels [[("f" : String)], ["g"]] false).summaries) [] "t"
      ≠ typeLookup ((compute_dir_summaries classifyTwoLabels [["g"], ["f"]] false).summaries) [] "t" :=
  ⟨List.Perm.swap _ _ _, by decide, by decide⟩

/-- Claim C6 (amended): over permuted inputs, in either mode, every
`(directory, type)` count and every entry's presence agree; only the
first-write-wins display label may depend on the order. -/
theorem perm_invariant_counts (c : PathC → FileClassification)
    {fs₁ fs₂ : List PathC} (h : fs₁.Perm fs₂) (r : Bool) (D : FolderPath)
    (T : FileExtension) :
    lookupCount ((compute_dir_summaries c fs₁ r).summaries) D T
      = lookupCount ((compute_dir_summaries c fs₂ r).summaries) D T
  ∧ (typeLookup ((compute_dir_summaries c fs₁ r).summaries) D T = none
      ↔ typeLookup ((compute_dir_summaries c fs₂ r).summaries) D T = none) := by
  cases r
  · constructor
    · show lookupCount (buildDirect c fs₁) D T = lookupCount (buildDirect c fs₂) D T
      rw [lookupCount_buildDirect, lookupCount_buildDirect, matchCount_perm c D T h]
    · show typeLookup (buildDirect c fs₁) D T = none
        ↔ typeLookup (buildDirect c fs₂) D T = none
      rw [typeLookup_buildDirect_none_iff, typeLookup_buildDirect_none_iff]
      constructor <;> intro hall g hg hm
      · exact hall g (h.mem_iff.mpr hg) hm
      · exact hall g (h.mem_iff.mp hg) hm
  · constructor
    · show lookupCount (rollUp (buildDirect c fs₁)) D T
        = lookupCount (rollUp (buildDirect c fs₂)) D T
      rw [lookupCount_rollUp, lookupCount_rollUp, subtreeCount_buildDirect,
        subtreeCount_buildDirect, subtreeMatchCount_perm c D T h]
    · show typeLookup (rollUp (buildDirect c fs₁)) D T = none
        ↔ typeLookup (rollUp (buildDirect c fs₂)) D T = none
      rw [typeLookup_rollUp_buildDirect_none_iff, typeLookup_rollUp_buildDirect_none_iff]
      constructor <;> intro hall g hg hm
      · exact hall g (h.mem_iff.mpr hg) hm
      · exact hall g (h.mem_iff.mp hg) hm

/-- Witness for the amended permutation claim, on the same permuted pair
as the counterexample: the counts agree even though the labels differ. -/
theorem perm_invariant_counts_witness :
    lookupCount ((compute_dir_summaries classifyTwoLabels [[("f" : String)], ["g"]] false).summaries) [] "t"
      = lookupCount ((compute_dir_summaries classifyTwoLabels [["g"], ["f"]] false).summaries) [] "t"
  ∧ (typeLookup ((compute_dir_summaries classifyTwoLabels [[("f" : String)], ["g"]] false).summaries) [] "t" = none
      ↔ typeLookup ((compute_dir_summaries classifyTwoLabels [["g"], ["f"]] false).summaries) [] "t" = none) :=
  perm_invariant_counts classifyTwoLabels (List.Perm.swap _ _ _) false [] "t"

/-! ## Cache-codec lemmas -/

theorem splitSegs_ne_nil (cs : List Char) : splitSegs cs ≠ [] := by
  induction cs with
  | nil => simp [splitSegs]
  | cons c cs ih =>
    simp only [splitSegs]
    by_cases hc : c = '/'
    · simp [hc]
    · simp only [if_neg hc]
      rcases h : splitSegs cs with _ | ⟨s, ss⟩
      · simp
      · simp

theorem splitSegs_noslash {s : List Char} (h : ('/' : Char) ∉ s) :
    splitSegs s = [s] := by
  induction s with
  | nil => rfl
  | cons c cs ih =>
    simp only [List.mem_cons, not_or] at h
    have hc : ¬c = '/' := fun hh => h.1 hh.symm
    simp only [splitSegs, if_neg hc, ih h.2]

theorem splitSegs_append_slash {s : List Char} (t : List Char)
    (h : ('/' : Char) ∉ s) :
    splitSegs (s ++ '/' :: t) = s :: splitSegs t := by
  induction s with
  | nil => simp [splitSegs]
  | cons c cs ih =>
    simp only [List.mem_cons, not_or] at h
    have hc : ¬c = '/' := fun hh => h.1 hh.symm
    rw [List.cons_append]
    simp only [splitSegs, if_neg hc, ih h.2]

theorem splitSegs_joinSegs {segs : List (List Char)} (hne : segs ≠ [])
    (h : ∀ s ∈ segs, ('/' : Char) ∉ s) :
    splitSegs (joinSegs segs) = segs := by
  induction segs with
  | nil => exact absurd rfl hne
  | cons s rest ih =>
    rcases rest with _ | ⟨s2, rest'⟩
    · simp only [joinSegs, if_pos rfl]
      exact splitSegs_noslash (h s (by simp))
    · rw [joinSegs, if_neg (by simp : ¬(s2 :: rest' = []))]
      rw [splitSegs_append_slash _ (h s (by simp))]
      rw [ih (by simp) (fun x hx => h x (List.mem_cons_of_mem _ hx))]

theorem mk_data_eq (s : String) : String.mk s.data = s := rfl

theorem data_ne_nil {s : String} (h : s ≠ "") : s.data ≠ [] := by
  intro hd
  refine h ?_
  rw [← mk_data_eq s, hd]

theorem stringToPath_pathToString {p : PathC} (h : wfPath p) :
    stringToPath (pathToString p) = p := by
  obtain ⟨hfree, hne1⟩ := h
  cases p with
  | nil => rfl
  | cons s rest =>
    have hjoin_ne : joinSegs ((s :: rest).map String.data) ≠ [] := by
      cases rest with
      | nil =>
        simp only [List.map_cons, List.map_nil, joinSegs, if_pos rfl]
        have hs : s ≠ "" := by
          rintro rfl
          exact hne1 rfl
        exact data_ne_nil hs
      | cons s2 rest' =>
        simp only [List.map_cons, joinSegs, if_neg (by simp : ¬(s2.data :: rest'.map String.data = []))]
        simp
    have hstr_ne : pathToString (s :: rest) ≠ "" := by
      intro hstr
      refine hjoin_ne ?_
      have : (pathToString (s :: rest)).data = ("" : String).data := by rw [hstr]
      simpa [pathToString] using this
    rw [stringToPath, if_neg hstr_ne]
    have hdata : (pathToString (s :: rest)).data = joinSegs ((s :: rest).map String.data) := rfl
    rw [hdata, splitSegs_joinSegs (by simp)
      (by
        intro x hx
        obtain ⟨s', hs', rfl⟩ := List.mem_map.mp hx
        exact hfree s' hs')]
    rw [List.map_map]
    have hx : ∀ x ∈ s :: rest, (String.mk ∘ String.data) x = x := fun x _ => mk_data_eq x
    rw [List.map_congr_left hx]
    simp

theorem decodePerFileInfo_encode (i : PerFileInfo) :
    decodePerFileInfo (encodePerFileInfo i) = some i := rfl

theorem decodeInnerFields_encode (s : SummaryInfo) :
    decodeInnerFields (s.map (fun kv => (kv.1, encodePerFileInfo kv.2))) = some s := by
  induction s with
  | nil => rfl
  | cons kv rest ih =>
    rw [List.map_cons, decodeInnerFields, decodePerFileInfo_encode, ih]

theorem decodeSummaryInfo_encode (s : SummaryInfo) :
    decodeSummaryInfo (encodeSummaryInfo s) = some s :=
  decodeInnerFields_encode s

theorem decodeOuterFields_encode (l : List (FolderPath × SummaryInfo)) :
    decodeOuterFields (l.map (fun e => (pathToString e.1, encodeSummaryInfo e.2)))
      = some (l.map (fun e => (stringToPath (pathToString e.1), e.2))) := by
  induction l with
  | nil => rfl
  | cons e l ih =>
    rw [List.map_cons, decodeOuterFields, decodeSummaryInfo_encode, ih]
    rfl

/-- Decoding an encoded `DirSummaries` always succeeds, recovering the
version and the summaries up to re-parsing of the path keys. -/
theorem decode_encode (d : DirSummaries) :
    decode (encode d)
      = some ⟨d.version, d.summaries.map (fun e => (stringToPath (pathToString e.1), e.2))⟩ := by
  show (match decodeOuterFields
      (d.summaries.map (fun e => (pathToString e.1, encodeSummaryInfo e.2))) with
    | some l => some (⟨d.version, l⟩ : DirSummaries)
    | none => none) = _
  rw [decodeOuterFields_encode]

theorem map_roundtrip_paths (l : List (FolderPath × SummaryInfo))
    (h : ∀ e ∈ l, wfPath e.1) :
    l.map (fun e => (stringToPath (pathToString e.1), e.2)) = l := by
  induction l with
  | nil => rfl
  | cons e rest ih =>
    rw [List.map_cons, stringToPath_pathToString (h e (List.mem_cons_self ..)),
      ih (fun x hx => h x (List.mem_cons_of_mem _ hx))]

/-! ## Claim theorems: cache codec -/

/-- Claim C5: decoding the encoding of a `SummaryResult` recovers it
exactly (for every value whose directory keys are component lists that
represent path strings, i.e. all values arising from the source's
string-keyed maps). -/
theorem decode_encode_roundtrip (d : DirSummaries) (h : wfSummaries d) :
    decode (encode d) = some d := by
  rw [decode_encode, map_roundtrip_paths d.summaries h]

/-- Witness for the round-trip claim on a concrete value. -/
theorem decode_encode_roundtrip_witness :
    wfSummaries sampleSummaries
  ∧ decode (encode sampleSummaries) = some sampleSummaries :=
  ⟨by decide, decode_encode_roundtrip sampleSummaries (by decide)⟩

/-- Claim C10: a freshly computed summary carries
`version = DIR_SUMMARY_VERSION` in both modes, and its encoding passes
the reuse validity check of a same-version reader. -/
theorem fresh_summary_version_current (c : PathC → FileClassification)
    (files : List PathC) (r : Bool) :
    (compute_dir_summaries c files r).version = DIR_SUMMARY_VERSION
  ∧ isReusable (some (encode (compute_dir_summaries c files r))) = true := by
  have hv : (compute_dir_summaries c files r).version = DIR_SUMMARY_VERSION := by
    cases r
    · rfl
    · rfl
  refine ⟨hv, ?_⟩
  unfold isReusable
  dsimp only
  rw [decode_encode]
  dsimp only
  rw [hv]
  rfl

/-! ## Claim theorems: command driver -/

/-- Claim C4: with caching enabled and a stored payload present, the
payload is reused (printed verbatim, no recompute) iff it decodes into a
`DirSummaries` whose version equals `DIR_SUMMARY_VERSION`; any decode
failure or version mismatch leads to recomputation, with the freshly
computed result returned rather than an error. -/
theorem cache_reuse_iff_version_match (c : PathC → FileClassification)
    (files : List PathC) (r : Bool) (store : CacheStore) (p : Json)
    (h : store.note = some p) :
    ((dir_summary_command c files false r store).recomputed = false
      ↔ ∃ d, decode p = some d ∧ d.version = DIR_SUMMARY_VERSION)
  ∧ ((dir_summary_command c files false r store).recomputed = false
      → (dir_summary_command c files false r store).output = p)
  ∧ ((dir_summary_command c files false r store).recomputed = true
      → (dir_summary_command c files false r store).output
          = encode (compute_dir_summaries c files r)) := by
  unfold dir_summary_command isReusable
  rw [h]
  dsimp only
  rcases hd : decode p with _ | d
  · simp
  · by_cases hv : d.version = DIR_SUMMARY_VERSION
    · simp [hv]
    · have hbeq : (d.version == DIR_SUMMARY_VERSION) = false := by
        simp [hv]
      simp [hbeq, hv]

/-- Witness for the cache-validity claim at a concrete stored payload
carrying the current version. -/
theorem cache_reuse_iff_version_match_witness :
    ((dir_summary_command classifyNone [] false false ⟨some storedPayloadV1⟩).recomputed = false
      ↔ ∃ d, decode storedPayloadV1 = some d ∧ d.version = DIR_SUMMARY_VERSION)
  ∧ ((dir_summary_command classifyNone [] false false ⟨some storedPayloadV1⟩).recomputed = false
      → (dir_summary_command classifyNone [] false false ⟨some storedPayloadV1⟩).output
          = storedPayloadV1)
  ∧ ((dir_summary_command classifyNone [] false false ⟨some storedPayloadV1⟩).recomputed = true
      → (dir_summary_command classifyNone [] false false ⟨some storedPayloadV1⟩).output
          = encode (compute_dir_summaries classifyNone [] false)) :=
  cache_reuse_iff_version_match classifyNone [] false ⟨some storedPayloadV1⟩ storedPayloadV1 rfl

/-- Claim C7 (divergence record): with `no_cache = true` the invocation
still performs the Cache Store `get`, because the source evaluates
`gitrepo.find_note(..)` eagerly inside the tuple on line 51 before the
`no_cache` pattern test; the result of the read is ignored, the summary
is always recomputed and returned, no `put` happens, and the store is
left unchanged. -/
theorem no_cache_still_calls_get (c : PathC → FileClassification)
    (files : List PathC) (r : Bool) (store : CacheStore) :
    (dir_summary_command c files true r store).ops = [CacheOp.get]
  ∧ (dir_summary_command c files true r store).recomputed = true
  ∧ (dir_summary_command c files true r store).output
      = encode (compute_dir_summaries c files r)
  ∧ (dir_summary_command c files true r store).store = store := by
  rcases store with ⟨note⟩
  rcases note with _ | p <;> exact ⟨rfl, rfl, rfl, rfl⟩

end XetDirSummary
